import Mathlib

/-!
Shallow embedding of the master/slave replication core
(src/src/nameserver/master_slave.cc) and verification of its specified
properties.

Bytes are modelled as natural numbers below 256 where relevant; the
on-disk log is a byte list.  The 4-byte length header written by
`memcpy(buf, &len, 4)` and read back the same way on the same machine is
modelled as a fixed 4-byte little-endian encoding; payload lengths are
restricted to values below 2^31 so that the C `int` arithmetic of the
source is faithfully represented by `Nat`.
-/

namespace MasterSlave

/-- Fixed 4-byte encoding of a record length, as written by
`memcpy(buf, &len, 4)` in `LogLocal` / read back in `ReplicateLog`. -/
def encodeLen (n : Nat) : List Nat :=
  [n % 256, n / 256 % 256, n / 65536 % 256, n / 16777216 % 256]

/-- Decoding of a 4-byte length header, as done by `memcpy(&len, buf, 4)`
in `ReplicateLog` (inverse of `encodeLen` on the same machine). -/
def decodeLen (b : List Nat) : Nat :=
  match b with
  | [b0, b1, b2, b3] => b0 + 256 * b1 + 65536 * b2 + 16777216 * b3
  | _ => 0

/-- The on-disk form of one record: 4-byte length header followed by the
payload bytes (`LogLocal`, lines 247-251). -/
def logRecord (p : List Nat) : List Nat := encodeLen p.length ++ p

/-- The on-disk form of a sequence of records appended in order. -/
def recordStream : List (List Nat) → List Nat
  | [] => []
  | p :: ps => logRecord p ++ recordStream ps

/-- The mutable state of `MasterSlaveImpl` that the replication claims are
about: the `sync.log` byte contents, the position of the `read_log_` file
descriptor, the two offset counters, the `callbacks_` map (modelled by its
key set, since each key holds one one-shot callback), the history of
callback invocations `(offset, success-flag)`, a ghost history `origin`
recording for each appended record `(offset, wasAsync)`, and the
`master_only_` flag. -/
structure SyncState where
  file : List Nat
  read_pos : Nat
  current_offset : Nat
  sync_offset : Nat
  callbacks : List Nat
  fired : List (Nat × Bool)
  origin : List (Nat × Bool)
  master_only : Bool
deriving DecidableEq

/-- The state right after `Init` on a fresh start (no `sync.log`, no
`prog.log`): both offsets 0, read cursor at 0, empty callback map. -/
def init0 : SyncState := ⟨[], 0, 0, 0, [], [], [], false⟩

/-- `std::map::insert` semantics: a no-op when the key is already
present. -/
def insertCb (o : Nat) (l : List Nat) : List Nat := if o ∈ l then l else o :: l

/-- The locked append portion shared by both `Log` entry points
(lines 72-77 and 111-118): `LogLocal` writes the length-prefixed record
and returns `len = entry.length() + 4`; the asynchronous entry point
additionally registers its callback keyed by the pre-increment
`current_offset_` (line 114, before line 116 increments it).  The ghost
`origin` field records which entry point appended the record. -/
def appendRecord (s : SyncState) (e : List Nat) (isAsync : Bool) : SyncState :=
  { s with
    file := s.file ++ logRecord e
    current_offset := s.current_offset + (e.length + 4)
    callbacks := if isAsync then insertCb s.current_offset s.callbacks else s.callbacks
    origin := (s.current_offset, isAsync) :: s.origin }

/-- Outcome of one iteration of the `ReplicateLog` drain loop
(lines 161-222). `idle` is the loop-guard exit; the two `fatal`
constructors are the `assert(0)` aborts (short header read, line 177, and
missing callback at a non-zero offset, line 214); `shortPayload` is the
early `return` after an incomplete payload read (line 187). -/
inductive DrainResult where
  | idle
  | fatalShortHeader (s : SyncState)
  | shortPayload (s : SyncState)
  | fatalNoCallback (s : SyncState)
  | ok (s : SyncState)
deriving DecidableEq

/-- One iteration of `ReplicateLog`'s while loop.  POSIX `read` returns
the available bytes (possibly fewer than requested) and advances the file
position by exactly the number of bytes actually read.  The RPC send
(lines 192-197) retries until success without touching any state, so it
is invisible here.  On success the callback at the pre-advance
`sync_offset_` is looked up (line 200): if present it is removed and
invoked with `true`; otherwise a non-zero offset is a fatal consistency
failure and offset zero is tolerated.  Finally `sync_offset_ += 4 + len`
(line 217). -/
def replicateStep (s : SyncState) : DrainResult :=
  if s.current_offset ≤ s.sync_offset then .idle
  else if ((s.file.drop s.read_pos).take 4).length < 4 then
    .fatalShortHeader
      { s with read_pos := s.read_pos + ((s.file.drop s.read_pos).take 4).length }
  else if (((s.file.drop s.read_pos).drop 4).take
        (decodeLen ((s.file.drop s.read_pos).take 4))).length
      < decodeLen ((s.file.drop s.read_pos).take 4) then
    .shortPayload
      { s with read_pos := s.read_pos + (4 + (((s.file.drop s.read_pos).drop 4).take
          (decodeLen ((s.file.drop s.read_pos).take 4))).length) }
  else if s.sync_offset ∈ s.callbacks then
    .ok { s with read_pos := s.read_pos + (4 + decodeLen ((s.file.drop s.read_pos).take 4))
                 sync_offset := s.sync_offset + (4 + decodeLen ((s.file.drop s.read_pos).take 4))
                 callbacks := s.callbacks.erase s.sync_offset
                 fired := (s.sync_offset, true) :: s.fired }
  else if s.sync_offset ≠ 0 then
    .fatalNoCallback
      { s with read_pos := s.read_pos + (4 + decodeLen ((s.file.drop s.read_pos).take 4)) }
  else
    .ok { s with read_pos := s.read_pos + (4 + decodeLen ((s.file.drop s.read_pos).take 4))
                 sync_offset := s.sync_offset + (4 + decodeLen ((s.file.drop s.read_pos).take 4)) }

/-- Interleaving steps of the leader after `Init`: a synchronous append
(its locked portion), an asynchronous append, or one successful drain
iteration of the replication worker.  Payload lengths stay below `2^31`
(the C `int` range of `LogLocal`). -/
inductive Step : SyncState → SyncState → Prop
  | syncAppend {s : SyncState} (e : List Nat) (h : e.length < 2 ^ 31) :
      Step s (appendRecord s e false)
  | asyncAppend {s : SyncState} (e : List Nat) (h : e.length < 2 ^ 31) :
      Step s (appendRecord s e true)
  | drain {s t : SyncState} (h : replicateStep s = .ok t) : Step s t

/-- States reachable from a fresh `Init` by any interleaving of appends
and drain iterations. -/
inductive Reachable : SyncState → Prop
  | init : Reachable init0
  | step {s t : SyncState} : Reachable s → Step s t → Reachable t

/-- One round of the synchronous `Log` wait loop as observed by the
caller: whether `get_micros() < stop_point` still held at the guard
(line 86), the values of `sync_offset_` and `current_offset_` read at the
guard, whether `log_done_.TimeWait` returned true (line 89), and the
values re-read after the wait (line 90). -/
structure WaitObs where
  timeLeft : Bool
  syncAtGuard : Nat
  curAtGuard : Nat
  signaled : Bool
  syncAfterWait : Nat
  curAfterWait : Nat
deriving DecidableEq

/-- Result of the synchronous `Log` call: the returned boolean, the value
of `master_only_` when the call returns, and how many `TimeWait` calls
were performed. -/
structure LogResult where
  retval : Bool
  master_only : Bool
  waits : Nat
deriving DecidableEq

/-- The wait loop of the synchronous `Log` (lines 86-106).  Exhausting
the observation list models the deadline having passed at the guard.
Every exit that is not the caught-up branch of line 90 falls through to
lines 104-106, which unconditionally set `master_only_ = true` and return
true; the caught-up branch clears the flag (lines 93-96) and returns
true. -/
def logWaitLoop : List WaitObs → LogResult
  | [] => ⟨true, true, 0⟩
  | o :: rest =>
    if o.syncAtGuard = o.curAtGuard ∨ o.timeLeft = false then ⟨true, true, 0⟩
    else if o.signaled = false then ⟨true, true, 1⟩
    else if o.syncAfterWait ≠ o.curAfterWait then
      ⟨(logWaitLoop rest).retval, (logWaitLoop rest).master_only, (logWaitLoop rest).waits + 1⟩
    else ⟨true, false, 1⟩

/-- The post-append portion of the synchronous `Log` (lines 78-106):
`mo` is the `master_only_` value observed at line 79, `syncObs` the
`sync_offset_` value observed there, `last_offset` the pre-increment
`current_offset_` of this append.  When the degraded-mode guard of
line 79 fires the call returns true at once with the flag unchanged and
no wait performed; otherwise the wait loop runs. -/
def syncLog (mo : Bool) (syncObs last_offset : Nat) (obs : List WaitObs) : LogResult :=
  if mo = true ∧ syncObs < last_offset then ⟨true, mo, 0⟩
  else logWaitLoop obs

/-- Specification-side mirror for the amended degraded-mode claim: the
wait catches up exactly when some `TimeWait` is signaled and then
observes `sync_offset_ == current_offset_`, before any guard exit
(deadline, guard already caught up, or an unsignaled wait). -/
def waitCatchesUp : List WaitObs → Bool
  | [] => false
  | o :: rest =>
    if o.syncAtGuard = o.curAtGuard ∨ o.timeLeft = false then false
    else if o.signaled = false then false
    else if o.syncAfterWait ≠ o.curAfterWait then waitCatchesUp rest
    else true

/-- Result of `open`: failure with an `errno` value, or success with the
file contents. -/
inductive OpenResult where
  | fail (err : Nat)
  | ok (content : List Nat)
deriving DecidableEq

/-- Outcome of the `prog.log` recovery portion of `Init`: a fatal
`LOG(FATAL)` abort, or proceeding with a recovered `sync_offset_`. -/
inductive InitOutcome where
  | fatal
  | proceed (sync_offset : Nat)
deriving DecidableEq

/-- The POSIX `ENOENT` errno value. -/
def enoent : Nat := 2

/-- The `prog.log` recovery logic of `Init` (lines 30-42): a failed open
is fatal unless `errno == ENOENT`; on success, `sync_offset_` is set from
the first 4 bytes only when the read returns exactly 4 bytes, and is left
at 0 otherwise (also when the file was absent). -/
def recoverSyncOffset : OpenResult → InitOutcome
  | .fail e => if e ≠ enoent then .fatal else .proceed 0
  | .ok c => if (c.take 4).length = 4 then .proceed (decodeLen (c.take 4)) else .proceed 0

/-- Appending a sequence of payloads through the synchronous entry
point, starting from a given state. -/
def appendAll (s : SyncState) (ps : List (List Nat)) : SyncState :=
  ps.foldl (fun t p => appendRecord t p false) s

/-- Fuel-bounded sequential record reader with the exact framing of the
drain loop: 4-byte header, then that many payload bytes. -/
def readRecordsFuel (fuel : Nat) (bytes : List Nat) : Option (List (List Nat)) :=
  if bytes = [] then some []
  else
    match fuel with
    | 0 => none
    | f + 1 =>
      if 4 ≤ bytes.length then
        if decodeLen (bytes.take 4) ≤ (bytes.drop 4).length then
          match readRecordsFuel f ((bytes.drop 4).drop (decodeLen (bytes.take 4))) with
          | some ps => some ((bytes.drop 4).take (decodeLen (bytes.take 4)) :: ps)
          | none => none
        else none
      else none
termination_by fuel

/-- Reading a log file sequentially from offset 0, record by record.
Each record consumes at least one byte, so the byte count bounds the
record count and serves as fuel. -/
def readRecords (bytes : List Nat) : Option (List (List Nat)) :=
  readRecordsFuel bytes.length bytes

theorem encodeLen_length (n : Nat) : (encodeLen n).length = 4 := rfl

theorem decode_encode {n : Nat} (h : n < 2 ^ 32) : decodeLen (encodeLen n) = n := by
  simp only [encodeLen, decodeLen]
  omega

theorem logRecord_length (p : List Nat) : (logRecord p).length = 4 + p.length := by
  simp [logRecord, encodeLen_length]

theorem logRecord_length_pos (p : List Nat) : 0 < (logRecord p).length := by
  simp [logRecord_length]

theorem recordStream_append (ps qs : List (List Nat)) :
    recordStream (ps ++ qs) = recordStream ps ++ recordStream qs := by
  induction ps with
  | nil => rfl
  | cons p ps ih => simp [recordStream, ih]

theorem recordStream_length (ps : List (List Nat)) :
    (recordStream ps).length = (ps.map (fun p => 4 + p.length)).sum := by
  induction ps with
  | nil => rfl
  | cons p ps ih => simp [recordStream, logRecord_length, ih]

theorem recordStream_take_length_le (ps : List (List Nat)) (k : Nat) :
    (recordStream (ps.take k)).length ≤ (recordStream ps).length := by
  conv_rhs => rw [← List.take_append_drop k ps]
  rw [recordStream_append, List.length_append]
  omega

theorem recordStream_take_succ (ps : List (List Nat)) (k : Nat) (h : k < ps.length) :
    recordStream (ps.take (k + 1))
      = recordStream (ps.take k) ++ logRecord (ps.get ⟨k, h⟩) := by
  rw [List.take_succ, recordStream_append]
  have : ps[k]? = some (ps.get ⟨k, h⟩) := List.getElem?_eq_getElem h
  simp [this, recordStream]

theorem recordStream_drop_at_take (ps : List (List Nat)) (k : Nat) (h : k < ps.length) :
    (recordStream ps).drop (recordStream (ps.take k)).length
      = logRecord (ps.get ⟨k, h⟩) ++ recordStream (ps.drop (k + 1)) := by
  have hsplit : recordStream ps = recordStream (ps.take k) ++ recordStream (ps.drop k) := by
    rw [← recordStream_append, List.take_append_drop]
  rw [hsplit, List.drop_left]
  have hd : ps.drop k = ps.get ⟨k, h⟩ :: ps.drop (k + 1) :=
    (List.cons_getElem_drop_succ (h := h)).symm
  rw [hd, recordStream]

theorem recordStream_take_length_lt (ps : List (List Nat)) (k : Nat) (h : k < ps.length) :
    (recordStream (ps.take k)).length < (recordStream ps).length := by
  have h1 := recordStream_take_length_le ps k
  have h2 : (recordStream (ps.take (k + 1))).length ≤ (recordStream ps).length :=
    recordStream_take_length_le ps (k + 1)
  have h3 := recordStream_take_succ ps k h
  have h4 := logRecord_length_pos (ps.get ⟨k, h⟩)
  have h5 : (recordStream (ps.take (k + 1))).length
      = (recordStream (ps.take k)).length + (logRecord (ps.get ⟨k, h⟩)).length := by
    rw [h3, List.length_append]
  omega

theorem length_le_recordStream_length (ps : List (List Nat)) :
    ps.length ≤ (recordStream ps).length := by
  induction ps with
  | nil => simp [recordStream]
  | cons p ps ih =>
    have := logRecord_length_pos p
    simp only [recordStream, List.length_append, List.length_cons]
    omega

theorem insertCb_of_not_mem {o : Nat} {l : List Nat} (h : o ∉ l) :
    insertCb o l = o :: l := by
  simp [insertCb, h]

/-- Structural invariant of a leader state: the file is the record
stream of the payloads appended so far, the counters are file offsets,
the read cursor sits at `sync_offset`, which is the boundary after the
first `k` records, and the callback map, the firing history and the
ghost append history are mutually consistent. -/
def Inv (s : SyncState) : Prop :=
  (∃ ps k,
    (∀ p ∈ ps, p.length < 2 ^ 31) ∧
    s.file = recordStream ps ∧
    s.current_offset = s.file.length ∧
    s.read_pos = s.sync_offset ∧
    k ≤ ps.length ∧
    s.sync_offset = (recordStream (ps.take k)).length) ∧
  s.callbacks.Nodup ∧
  (∀ o ∈ s.callbacks, o < s.current_offset) ∧
  (∀ o ∈ s.callbacks, (o, true) ∈ s.origin) ∧
  (∀ p ∈ s.fired, p.2 = true) ∧
  (s.fired.map Prod.fst).Nodup ∧
  (∀ p ∈ s.fired, p.1 < s.sync_offset) ∧
  (∀ o ∈ s.callbacks, o ∉ s.fired.map Prod.fst) ∧
  (s.origin.map Prod.fst).Nodup ∧
  (∀ p ∈ s.origin, p.1 < s.current_offset) ∧
  s.sync_offset ≤ s.current_offset

theorem record_at_cursor {s : SyncState} {ps : List (List Nat)} {k : Nat}
    (hb : ∀ p ∈ ps, p.length < 2 ^ 31)
    (hf : s.file = recordStream ps)
    (hcur : s.current_offset = s.file.length)
    (hrp : s.read_pos = s.sync_offset)
    (_hk : k ≤ ps.length)
    (hs : s.sync_offset = (recordStream (ps.take k)).length)
    (hlt : s.sync_offset < s.current_offset) :
    ∃ h2 : k < ps.length,
      (s.file.drop s.read_pos).take 4 = encodeLen (ps.get ⟨k, h2⟩).length ∧
      decodeLen ((s.file.drop s.read_pos).take 4) = (ps.get ⟨k, h2⟩).length ∧
      ((s.file.drop s.read_pos).drop 4).take (decodeLen ((s.file.drop s.read_pos).take 4))
        = ps.get ⟨k, h2⟩ ∧
      s.sync_offset + (4 + (ps.get ⟨k, h2⟩).length)
        = (recordStream (ps.take (k + 1))).length := by
  have h2 : k < ps.length := by
    rcases Nat.lt_or_ge k ps.length with hx | hx
    · exact hx
    · exfalso
      have htk : ps.take k = ps := List.take_of_length_le hx
      have he : s.sync_offset = s.current_offset := by
        rw [hs, htk, ← hf, ← hcur]
      omega
  have hdrop : s.file.drop s.read_pos
      = logRecord (ps.get ⟨k, h2⟩) ++ recordStream (ps.drop (k + 1)) := by
    rw [hf, hrp, hs]
    exact recordStream_drop_at_take ps k h2
  have h1 : (s.file.drop s.read_pos).take 4 = encodeLen (ps.get ⟨k, h2⟩).length := by
    rw [hdrop, logRecord, List.append_assoc]
    exact List.take_left' (encodeLen_length _)
  have hplt : (ps.get ⟨k, h2⟩).length < 2 ^ 31 := hb _ (List.get_mem ps k h2)
  have hdec : decodeLen ((s.file.drop s.read_pos).take 4) = (ps.get ⟨k, h2⟩).length := by
    rw [h1]
    exact decode_encode (by omega)
  have h3 : (s.file.drop s.read_pos).drop 4
      = ps.get ⟨k, h2⟩ ++ recordStream (ps.drop (k + 1)) := by
    rw [hdrop, logRecord, List.append_assoc]
    exact List.drop_left' (encodeLen_length _)
  have h4 : ((s.file.drop s.read_pos).drop 4).take (decodeLen ((s.file.drop s.read_pos).take 4))
      = ps.get ⟨k, h2⟩ := by
    rw [h3, hdec]
    exact List.take_left' rfl
  have h5 : s.sync_offset + (4 + (ps.get ⟨k, h2⟩).length)
      = (recordStream (ps.take (k + 1))).length := by
    rw [recordStream_take_succ ps k h2, List.length_append, logRecord_length, hs]
  exact ⟨h2, h1, hdec, h4, h5⟩

theorem replicateStep_eq_branch {s : SyncState} {L : Nat}
    (hlt : s.sync_offset < s.current_offset)
    (hdec : decodeLen ((s.file.drop s.read_pos).take 4) = L)
    (hhl : ((s.file.drop s.read_pos).take 4).length = 4)
    (hpl : (((s.file.drop s.read_pos).drop 4).take
        (decodeLen ((s.file.drop s.read_pos).take 4))).length = L) :
    replicateStep s =
      if s.sync_offset ∈ s.callbacks then
        .ok { s with read_pos := s.read_pos + (4 + L)
                     sync_offset := s.sync_offset + (4 + L)
                     callbacks := s.callbacks.erase s.sync_offset
                     fired := (s.sync_offset, true) :: s.fired }
      else if s.sync_offset ≠ 0 then
        .fatalNoCallback { s with read_pos := s.read_pos + (4 + L) }
      else
        .ok { s with read_pos := s.read_pos + (4 + L)
                     sync_offset := s.sync_offset + (4 + L) } := by
  unfold replicateStep
  rw [if_neg (by omega : ¬ s.current_offset ≤ s.sync_offset),
    if_neg (by omega : ¬ ((s.file.drop s.read_pos).take 4).length < 4),
    if_neg (by omega : ¬ (((s.file.drop s.read_pos).drop 4).take
      (decodeLen ((s.file.drop s.read_pos).take 4))).length
        < decodeLen ((s.file.drop s.read_pos).take 4)), hdec]

theorem inv_init : Inv init0 := by
  refine ⟨⟨[], 0, ?_, ?_, ?_, ?_, ?_, ?_⟩, ?_, ?_, ?_, ?_, ?_, ?_, ?_, ?_, ?_, ?_⟩ <;>
    simp [init0, recordStream]

theorem inv_append {s : SyncState} (hInv : Inv s) (e : List Nat) (he : e.length < 2 ^ 31)
    (b : Bool) : Inv (appendRecord s e b) := by
  obtain ⟨⟨ps, k, hb, hf, hcur, hrp, hk, hs⟩,
    hcbnd, hcblt, hcborg, hft, hfnd, hflt, hcbf, hond, holt, hle⟩ := hInv
  have hnm : s.current_offset ∉ s.callbacks := by
    intro hmem
    exact absurd (hcblt _ hmem) (by omega)
  have hcb : (appendRecord s e b).callbacks
      = if b then s.current_offset :: s.callbacks else s.callbacks := by
    cases b with
    | false => rfl
    | true => simp [appendRecord, insertCb_of_not_mem hnm]
  refine ⟨⟨ps ++ [e], k, ?_, ?_, ?_, ?_, ?_, ?_⟩, ?_, ?_, ?_, ?_, ?_, ?_, ?_, ?_, ?_, ?_⟩
  · intro p hp
    rcases List.mem_append.1 hp with hx | hx
    · exact hb p hx
    · rw [List.mem_singleton.1 hx]
      exact he
  · show s.file ++ logRecord e = _
    rw [hf, recordStream_append]
    simp [recordStream]
  · show s.current_offset + (e.length + 4) = (s.file ++ logRecord e).length
    rw [List.length_append, logRecord_length, hcur]
    omega
  · exact hrp
  · simp only [List.length_append, List.length_singleton]
    omega
  · show s.sync_offset = _
    rw [List.take_append_of_le_length hk]
    exact hs
  · rw [hcb]
    cases b with
    | false => exact hcbnd
    | true =>
      simp only [if_true]
      exact List.nodup_cons.2 ⟨hnm, hcbnd⟩
  · rw [hcb]
    intro o ho
    show o < s.current_offset + (e.length + 4)
    cases b with
    | false => have := hcblt o ho; omega
    | true =>
      simp only [if_true, List.mem_cons] at ho
      rcases ho with rfl | ho
      · omega
      · have := hcblt o ho; omega
  · rw [hcb]
    intro o ho
    show (o, true) ∈ (s.current_offset, b) :: s.origin
    cases b with
    | false => exact List.mem_cons_of_mem _ (hcborg o ho)
    | true =>
      simp only [if_true, List.mem_cons] at ho
      rcases ho with rfl | ho
      · exact List.mem_cons_self _ _
      · exact List.mem_cons_of_mem _ (hcborg o ho)
  · exact hft
  · exact hfnd
  · exact hflt
  · rw [hcb]
    intro o ho
    cases b with
    | false => exact hcbf o ho
    | true =>
      simp only [if_true, List.mem_cons] at ho
      rcases ho with rfl | ho
      · intro hmem
        obtain ⟨p, hp, hp1⟩ := List.mem_map.1 hmem
        have := hflt p hp
        omega
      · exact hcbf o ho
  · show ((s.current_offset, b) :: s.origin).map Prod.fst |>.Nodup
    refine List.nodup_cons.2 ⟨?_, hond⟩
    intro hmem
    obtain ⟨p, hp, hp1⟩ := List.mem_map.1 hmem
    have := holt p hp
    omega
  · intro p hp
    show p.1 < s.current_offset + (e.length + 4)
    rcases List.mem_cons.1 hp with rfl | hp
    · omega
    · have := holt p hp; omega
  · show s.sync_offset ≤ s.current_offset + (e.length + 4)
    omega

theorem inv_drain {s t : SyncState} (hInv : Inv s) (h : replicateStep s = .ok t) : Inv t := by
  obtain ⟨⟨ps, k, hb, hf, hcur, hrp, hk, hs⟩,
    hcbnd, hcblt, hcborg, hft, hfnd, hflt, hcbf, hond, holt, hle⟩ := hInv
  have hlt : s.sync_offset < s.current_offset := by
    by_contra hcon
    push_neg at hcon
    unfold replicateStep at h
    rw [if_pos hcon] at h
    exact DrainResult.noConfusion h
  obtain ⟨h2, hhdr1, hdec, htake, hlen⟩ := record_at_cursor hb hf hcur hrp hk hs hlt
  have hrw := replicateStep_eq_branch hlt hdec (by rw [hhdr1]; rfl) (by rw [htake])
  rw [hrw] at h
  have hsynle : s.sync_offset + (4 + (ps.get ⟨k, h2⟩).length) ≤ s.current_offset := by
    rw [hlen, hcur, hf]
    exact recordStream_take_length_le ps (k + 1)
  by_cases hcb : s.sync_offset ∈ s.callbacks
  · rw [if_pos hcb] at h
    injection h with h
    subst h
    refine ⟨⟨ps, k + 1, hb, hf, hcur, ?_, by omega, ?_⟩, ?_, ?_, ?_, ?_, ?_, ?_, ?_,
      hond, holt, ?_⟩
    · show s.read_pos + _ = s.sync_offset + _
      rw [hrp]
    · exact hlen
    · exact hcbnd.erase _
    · intro o ho
      exact hcblt o (List.mem_of_mem_erase ho)
    · intro o ho
      exact hcborg o (List.mem_of_mem_erase ho)
    · intro p hp
      rcases List.mem_cons.1 hp with rfl | hp

      · rfl
      · exact hft p hp
    · show (s.sync_offset :: s.fired.map Prod.fst).Nodup
      refine List.nodup_cons.2 ⟨?_, hfnd⟩
      intro hmem
      obtain ⟨p, hp, hp1⟩ := List.mem_map.1 hmem
      have := hflt p hp
      omega
    · intro p hp
      show p.1 < s.sync_offset + _
      rcases List.mem_cons.1 hp with rfl | hp
      · omega
      · have := hflt p hp; omega
    · intro o ho
      have hmem := List.mem_of_mem_erase ho
      have hne : o ≠ s.sync_offset := ((hcbnd.mem_erase_iff).1 ho).1
      show o ∉ s.sync_offset :: s.fired.map Prod.fst
      intro hx
      rcases List.mem_cons.1 hx with rfl | hx
      · exact hne rfl
      · exact hcbf o hmem hx
    · exact hsynle
  · rw [if_neg hcb] at h
    by_cases h0 : s.sync_offset ≠ 0
    · rw [if_pos h0] at h
      exact DrainResult.noConfusion h
    · rw [if_neg h0] at h
      injection h with h
      subst h
      refine ⟨⟨ps, k + 1, hb, hf, hcur, ?_, by omega, ?_⟩, hcbnd, hcblt, hcborg, hft,
        hfnd, ?_, hcbf, hond, holt, ?_⟩
      · show s.read_pos + _ = s.sync_offset + _
        rw [hrp]
      · exact hlen
      · intro p hp
        have := hflt p hp
        show p.1 < s.sync_offset + _
        omega
      · exact hsynle

theorem inv_preserved {s t : SyncState} (hInv : Inv s) (hst : Step s t) : Inv t := by
  cases hst with
  | syncAppend e he => exact inv_append hInv e he false
  | asyncAppend e he => exact inv_append hInv e he true
  | drain h => exact inv_drain hInv h

theorem reachable_inv {s : SyncState} (h : Reachable s) : Inv s := by
  induction h with
  | init => exact inv_init
  | step _ hst ih => exact inv_preserved ih hst

theorem logWaitLoop_retval (obs : List WaitObs) : (logWaitLoop obs).retval = true := by
  induction obs with
  | nil => rfl
  | cons o rest ih =>
    unfold logWaitLoop
    split_ifs <;> simp [ih]

theorem logWaitLoop_master_only (obs : List WaitObs) :
    (logWaitLoop obs).master_only = !waitCatchesUp obs := by
  induction obs with
  | nil => rfl
  | cons o rest ih =>
    unfold logWaitLoop waitCatchesUp
    split_ifs <;> simp [ih]

theorem replicateStep_ok_master_only {s t : SyncState} (h : replicateStep s = .ok t) :
    t.master_only = s.master_only := by
  unfold replicateStep at h
  split_ifs at h <;>
    first
      | exact DrainResult.noConfusion h
      | (injection h with h; subst h; rfl)

theorem step_master_only {s t : SyncState} (hst : Step s t) :
    t.master_only = s.master_only := by
  cases hst with
  | syncAppend e he => rfl
  | asyncAppend e he => rfl
  | drain h => exact replicateStep_ok_master_only h

theorem appendAll_file_current (s : SyncState) (ps : List (List Nat)) :
    (appendAll s ps).file = s.file ++ recordStream ps ∧
    (appendAll s ps).current_offset = s.current_offset + (recordStream ps).length := by
  induction ps generalizing s with
  | nil => simp [appendAll, recordStream]
  | cons p ps ih =>
    have hstep : appendAll s (p :: ps) = appendAll (appendRecord s p false) ps := rfl
    rw [hstep]
    obtain ⟨ih1, ih2⟩ := ih (appendRecord s p false)
    constructor
    · rw [ih1]
      show s.file ++ logRecord p ++ recordStream ps = _
      rw [List.append_assoc]
      rfl
    · rw [ih2]
      show s.current_offset + (p.length + 4) + (recordStream ps).length = _
      simp only [recordStream, List.length_append, logRecord_length]
      omega

theorem readRecordsFuel_stream (ps : List (List Nat)) (hb : ∀ p ∈ ps, p.length < 2 ^ 31)
    (fuel : Nat) (hfu : ps.length ≤ fuel) :
    readRecordsFuel fuel (recordStream ps) = some ps := by
  induction ps generalizing fuel with
  | nil =>
    unfold readRecordsFuel
    simp [recordStream]
  | cons p ps ih =>
    have hsplit : recordStream (p :: ps) = encodeLen p.length ++ (p ++ recordStream ps) := by
      show logRecord p ++ recordStream ps = _
      rw [logRecord, List.append_assoc]
    have hlenpos : 0 < (recordStream (p :: ps)).length := by
      rw [hsplit]
      simp [encodeLen]
    have hne : recordStream (p :: ps) ≠ [] := List.ne_nil_of_length_pos hlenpos
    obtain ⟨f, rfl⟩ : ∃ f, fuel = f + 1 := by
      cases fuel with
      | zero => simp at hfu
      | succ f => exact ⟨f, rfl⟩
    have htk : (recordStream (p :: ps)).take 4 = encodeLen p.length := by
      rw [hsplit]
      exact List.take_left' (encodeLen_length _)
    have hdr : (recordStream (p :: ps)).drop 4 = p ++ recordStream ps := by
      rw [hsplit]
      exact List.drop_left' (encodeLen_length _)
    have hdec : decodeLen ((recordStream (p :: ps)).take 4) = p.length := by
      rw [htk]
      exact decode_encode (by have := hb p (by simp); omega)
    have h4 : 4 ≤ (recordStream (p :: ps)).length := by
      rw [hsplit]
      simp [encodeLen]
    unfold readRecordsFuel
    rw [if_neg hne]
    simp only []
    rw [if_pos h4, hdec, hdr]
    rw [if_pos (by simp : p.length ≤ (p ++ recordStream ps).length)]
    rw [List.drop_left' rfl, List.take_left' rfl]
    rw [ih (fun q hq => hb q (by simp [hq])) f (by simpa using hfu)]

/-- C1: at every observation point of every execution of the leader after
`Init` — under any interleaving of synchronous appends, asynchronous
appends and replication drain steps — the invariant
`sync_offset <= current_offset` holds. -/
theorem c1_sync_le_current {s : SyncState} (h : Reachable s) :
    s.sync_offset ≤ s.current_offset :=
  (reachable_inv h).2.2.2.2.2.2.2.2.2.2

/-- C1 witness: a concrete reachable state satisfying the invariant. -/
theorem c1_sync_le_current_witness :
    Reachable (appendRecord init0 [42] false) ∧
    (appendRecord init0 [42] false).sync_offset
      ≤ (appendRecord init0 [42] false).current_offset :=
  ⟨Reachable.step Reachable.init (Step.syncAppend [42] (by decide)),
   c1_sync_le_current (Reachable.step Reachable.init (Step.syncAppend [42] (by decide)))⟩

/-- C2: in every reachable state, every callback invocation so far
carried `success = true`, no offset was ever invoked twice, invocations
happen only for offsets the worker has confirmed (strictly below
`sync_offset`), an entry still registered was never invoked, an
asynchronous append registers its callback keyed by the pre-increment
`current_offset`, and the drain step that confirms the record at a
registered offset removes the entry and invokes it with `true`. -/
theorem c2_callback_exactly_once {s : SyncState} (h : Reachable s) :
    (∀ p ∈ s.fired, p.2 = true) ∧
    (s.fired.map Prod.fst).Nodup ∧
    (∀ p ∈ s.fired, p.1 < s.sync_offset) ∧
    (∀ o ∈ s.callbacks, o ∉ s.fired.map Prod.fst) ∧
    (∀ e : List Nat, (appendRecord s e true).callbacks = s.current_offset :: s.callbacks) ∧
    (∀ t : SyncState, replicateStep s = .ok t → s.sync_offset ∈ s.callbacks →
      t.fired = (s.sync_offset, true) :: s.fired ∧ s.sync_offset ∉ t.callbacks) := by
  obtain ⟨⟨ps, k, hb, hf, hcur, hrp, hk, hs⟩,
    hcbnd, hcblt, hcborg, hft, hfnd, hflt, hcbf, hond, holt, hle⟩ := reachable_inv h
  refine ⟨hft, hfnd, hflt, hcbf, ?_, ?_⟩
  · intro e
    have hnm : s.current_offset ∉ s.callbacks := by
      intro hmem
      exact absurd (hcblt _ hmem) (by omega)
    simp [appendRecord, insertCb_of_not_mem hnm]
  · intro t ht hcb
    have hlt : s.sync_offset < s.current_offset := by
      by_contra hcon
      push_neg at hcon
      unfold replicateStep at ht
      rw [if_pos hcon] at ht
      exact DrainResult.noConfusion ht
    obtain ⟨h2, hhdr1, hdec, htake, hlen⟩ := record_at_cursor hb hf hcur hrp hk hs hlt
    rw [replicateStep_eq_branch hlt hdec (by rw [hhdr1]; rfl) (by rw [htake]),
      if_pos hcb] at ht
    injection ht with ht
    subst ht
    refine ⟨rfl, ?_⟩
    intro hmem
    exact ((hcbnd.mem_erase_iff).1 hmem).1 rfl

/-- C2 witness: after an asynchronous append of one record and the drain
step confirming it, the invocation history has pairwise-distinct offsets
and the confirmed record's callback fired with `true`. -/
theorem c2_callback_exactly_once_witness :
    Reachable (⟨[1, 0, 0, 0, 9], 5, 5, 5, [], [(0, true)], [(0, true)], false⟩ : SyncState) ∧
    ((⟨[1, 0, 0, 0, 9], 5, 5, 5, [], [(0, true)], [(0, true)], false⟩ :
        SyncState).fired.map Prod.fst).Nodup :=
  ⟨Reachable.step (Reachable.step Reachable.init (Step.asyncAppend [9] (by decide)))
      (Step.drain (by decide)),
   (c2_callback_exactly_once
      (Reachable.step (Reachable.step Reachable.init (Step.asyncAppend [9] (by decide)))
        (Step.drain (by decide)))).2.1⟩

/-- C3: the synchronous `Log(entry, timeout_ms)` returns true on every
return path — degraded-mode early return, catch-up before the deadline,
and deadline expiry. -/
theorem c3_sync_log_always_true (mo : Bool) (syncObs last_offset : Nat)
    (obs : List WaitObs) :
    (syncLog mo syncObs last_offset obs).retval = true := by
  unfold syncLog
  split_ifs
  · rfl
  · exact logWaitLoop_retval obs

/-- C4 counterexample: a drain step whose payload read is short returns
with `sync_offset` unchanged but with the read cursor advanced over the
4-byte header and the partial payload (position 7 after consuming the
header and 3 of the 10 announced payload bytes), so the record is
partially consumed, contrary to the claim. -/
theorem c4_short_read_counterexample :
    replicateStep (⟨[10, 0, 0, 0, 1, 2, 3], 0, 20, 0, [], [], [], false⟩ : SyncState)
      = .shortPayload (⟨[10, 0, 0, 0, 1, 2, 3], 7, 20, 0, [], [], [], false⟩ : SyncState) ∧
    (⟨[10, 0, 0, 0, 1, 2, 3], 7, 20, 0, [], [], [], false⟩ : SyncState).read_pos = 7 ∧
    (⟨[10, 0, 0, 0, 1, 2, 3], 7, 20, 0, [], [], [], false⟩ : SyncState).sync_offset = 0 := by
  decide

/-- C4 amended: a short read on the 4-byte length header aborts the
drain fatally, and a short read on the payload makes the call return;
in both cases `sync_offset` is unchanged, but the read cursor advances
by the bytes actually read (the partial header, or the full header plus
the partial payload), so the record is partially consumed by the
cursor. -/
theorem c4_short_read_behavior (s : SyncState)
    (hlt : s.sync_offset < s.current_offset) :
    (((s.file.drop s.read_pos).take 4).length < 4 →
      replicateStep s = .fatalShortHeader
        { s with read_pos := s.read_pos + ((s.file.drop s.read_pos).take 4).length }) ∧
    (((s.file.drop s.read_pos).take 4).length = 4 →
      (((s.file.drop s.read_pos).drop 4).take
          (decodeLen ((s.file.drop s.read_pos).take 4))).length
        < decodeLen ((s.file.drop s.read_pos).take 4) →
      replicateStep s = .shortPayload
        { s with read_pos := s.read_pos + (4 + (((s.file.drop s.read_pos).drop 4).take
            (decodeLen ((s.file.drop s.read_pos).take 4))).length) }) := by
  constructor
  · intro h4
    unfold replicateStep
    rw [if_neg (by omega), if_pos h4]
  · intro h4 hp
    unfold replicateStep
    rw [if_neg (by omega), if_neg (by omega), if_pos hp]

/-- C4 witness: concrete short-header and short-payload drain steps,
each failing without advancing `sync_offset` while the cursor consumes
the partial data. -/
theorem c4_short_read_behavior_witness :
    ((0 : Nat) < 10 ∧ (2 : Nat) < 4 ∧
      replicateStep (⟨[1, 2], 0, 10, 0, [], [], [], false⟩ : SyncState)
        = .fatalShortHeader (⟨[1, 2], 2, 10, 0, [], [], [], false⟩ : SyncState)) ∧
    ((0 : Nat) < 20 ∧
      replicateStep (⟨[10, 0, 0, 0, 1, 2, 3], 0, 20, 0, [], [], [], true⟩ : SyncState)
        = .shortPayload (⟨[10, 0, 0, 0, 1, 2, 3], 7, 20, 0, [], [], [], true⟩ : SyncState)) :=
  ⟨⟨by decide, by decide,
    (c4_short_read_behavior ⟨[1, 2], 0, 10, 0, [], [], [], false⟩ (by decide)).1 (by decide)⟩,
   ⟨by decide,
    (c4_short_read_behavior ⟨[10, 0, 0, 0, 1, 2, 3], 0, 20, 0, [], [], [], true⟩
      (by decide)).2 (by decide) (by decide)⟩⟩

/-- C5 counterexample: a synchronous append that is not in master-only
mode, whose single guard observation has time remaining before the
deadline and `sync_offset == current_offset` (no unreplicated data),
still ends with `master_only = true`: the wait loop is skipped and the
fall-through unconditionally sets the flag. -/
theorem c5_master_only_counterexample :
    (syncLog false 5 0 [⟨true, 5, 5, false, 0, 0⟩]).master_only = true ∧
    (⟨true, 5, 5, false, 0, 0⟩ : WaitObs).timeLeft = true ∧
    (⟨true, 5, 5, false, 0, 0⟩ : WaitObs).syncAtGuard
      = (⟨true, 5, 5, false, 0, 0⟩ : WaitObs).curAtGuard := by
  decide

/-- C5 amended: after a synchronous append that does not take the
degraded-mode early return, `master_only` ends false exactly when some
signaled wait observes `sync_offset == current_offset` before any loop
exit, and ends true on every other exit — deadline expiry, an
unsignaled wait, and also a guard that already observes the offsets
equal (so the flag can be set with no unreplicated data and no deadline
elapsed); the early return leaves the flag unchanged, and neither the
append steps nor the drain step ever change the flag. -/
theorem c5_master_only_characterization (mo : Bool) (syncObs last_offset : Nat)
    (obs : List WaitObs) :
    ((mo = true ∧ syncObs < last_offset) →
      (syncLog mo syncObs last_offset obs).master_only = mo) ∧
    (¬ (mo = true ∧ syncObs < last_offset) →
      (syncLog mo syncObs last_offset obs).master_only = !waitCatchesUp obs) ∧
    (∀ s t : SyncState, Step s t → t.master_only = s.master_only) := by
  refine ⟨?_, ?_, ?_⟩
  · intro hg
    unfold syncLog
    rw [if_pos hg]
  · intro hg
    unfold syncLog
    rw [if_neg hg]
    exact logWaitLoop_master_only obs
  · intro s t hst
    exact step_master_only hst

/-- C5 witness: a run with a non-positive remaining deadline at the
first guard ends in master-only mode, as the characterization
predicts. -/
theorem c5_master_only_characterization_witness :
    ¬ ((false : Bool) = true ∧ 5 < 0) ∧
    (syncLog false 5 0 [⟨false, 0, 1, false, 0, 0⟩]).master_only
      = !waitCatchesUp [⟨false, 0, 1, false, 0, 0⟩] :=
  ⟨by decide,
   (c5_master_only_characterization false 5 0 [⟨false, 0, 1, false, 0, 0⟩]).2.1 (by decide)⟩

/-- C6: a record appended through the synchronous entry point never has
an entry in the callback map at its offset, so when the drain step
confirms it at a non-zero offset, the lookup misses and the fatal
consistency-check branch is reached. -/
theorem c6_sync_append_hits_fatal_branch {s : SyncState} (h : Reachable s) (o : Nat)
    (ho : (o, false) ∈ s.origin) :
    o ∉ s.callbacks ∧
    (s.sync_offset = o → o ≠ 0 → s.sync_offset < s.current_offset →
      ∃ t, replicateStep s = .fatalNoCallback t) := by
  obtain ⟨⟨ps, k, hb, hf, hcur, hrp, hk, hs⟩,
    hcbnd, hcblt, hcborg, hft, hfnd, hflt, hcbf, hond, holt, hle⟩ := reachable_inv h
  have hno : o ∉ s.callbacks := by
    intro hmem
    have h1 : (o, true) ∈ s.origin := hcborg o hmem
    have h2 := List.inj_on_of_nodup_map hond h1 ho rfl
    simp at h2
  refine ⟨hno, ?_⟩
  intro hsync h0 hlt
  subst hsync
  obtain ⟨h2, hhdr1, hdec, htake, hlen⟩ := record_at_cursor hb hf hcur hrp hk hs hlt
  rw [replicateStep_eq_branch hlt hdec (by rw [hhdr1]; rfl) (by rw [htake]),
    if_neg hno, if_pos h0]
  exact ⟨_, rfl⟩

/-- C6 witness: after a sync append at offset 0, the drain confirming it
(offset zero is tolerated), and a second sync append at offset 5, the
drain step at offset 5 reaches the fatal branch. -/
theorem c6_sync_append_hits_fatal_branch_witness :
    Reachable (⟨[1, 0, 0, 0, 42, 1, 0, 0, 0, 7], 5, 10, 5, [], [],
      [(5, false), (0, false)], false⟩ : SyncState) ∧
    (5, false) ∈ (⟨[1, 0, 0, 0, 42, 1, 0, 0, 0, 7], 5, 10, 5, [], [],
      [(5, false), (0, false)], false⟩ : SyncState).origin ∧
    5 ∉ (⟨[1, 0, 0, 0, 42, 1, 0, 0, 0, 7], 5, 10, 5, [], [],
      [(5, false), (0, false)], false⟩ : SyncState).callbacks ∧
    (∃ t, replicateStep (⟨[1, 0, 0, 0, 42, 1, 0, 0, 0, 7], 5, 10, 5, [], [],
      [(5, false), (0, false)], false⟩ : SyncState) = .fatalNoCallback t) := by
  have h1 : Reachable (appendRecord init0 [42] false) :=
    Reachable.step Reachable.init (Step.syncAppend [42] (by decide))
  have h2 : Reachable (⟨[1, 0, 0, 0, 42], 5, 5, 5, [], [], [(0, false)], false⟩ : SyncState) :=
    Reachable.step h1 (Step.drain (by decide))
  have hreach : Reachable (⟨[1, 0, 0, 0, 42, 1, 0, 0, 0, 7], 5, 10, 5, [], [],
      [(5, false), (0, false)], false⟩ : SyncState) :=
    Reachable.step h2 (Step.syncAppend [7] (by decide))
  have hmain := c6_sync_append_hits_fatal_branch hreach 5 (by decide)
  exact ⟨hreach, by decide, hmain.1, hmain.2 (by decide) (by decide) (by decide)⟩

/-- C7: a synchronous append issued while `master_only` is true and
`sync_offset` is strictly below the offset this append occupies performs
the local append and returns true at once, with no `TimeWait` performed
and the flag unchanged. -/
theorem c7_degraded_no_wait (mo : Bool) (syncObs last_offset : Nat)
    (obs : List WaitObs) (h1 : mo = true) (h2 : syncObs < last_offset) :
    syncLog mo syncObs last_offset obs = ⟨true, mo, 0⟩ ∧
    (∀ (s : SyncState) (e : List Nat),
      (appendRecord s e false).file = s.file ++ logRecord e) := by
  constructor
  · unfold syncLog
    rw [if_pos ⟨h1, h2⟩]
  · intro s e
    rfl

/-- C7 witness: the degraded-mode early return at concrete inputs. -/
theorem c7_degraded_no_wait_witness :
    (true : Bool) = true ∧ (0 : Nat) < 5 ∧
    (syncLog true 0 5 [⟨true, 0, 5, true, 5, 5⟩] = ⟨true, true, 0⟩ ∧
      ∀ (s : SyncState) (e : List Nat),
        (appendRecord s e false).file = s.file ++ logRecord e) :=
  ⟨rfl, by decide, c7_degraded_no_wait true 0 5 [⟨true, 0, 5, true, 5, 5⟩] rfl (by decide)⟩

/-- C8: appending payloads `p_1..p_N` from an empty log makes
`current_offset` the sum of the records' on-disk sizes `4 + length p_i`,
and reading the file sequentially from offset 0 with the drain loop's
framing yields exactly `p_1..p_N` in order. -/
theorem c8_append_roundtrip (ps : List (List Nat)) (hb : ∀ p ∈ ps, p.length < 2 ^ 31) :
    (appendAll init0 ps).current_offset = (ps.map (fun p => 4 + p.length)).sum ∧
    readRecords (appendAll init0 ps).file = some ps := by
  obtain ⟨hfile, hcur⟩ := appendAll_file_current init0 ps
  have hfile0 : (appendAll init0 ps).file = recordStream ps := by
    rw [hfile]
    rfl
  constructor
  · rw [hcur, ← recordStream_length]
    simp [init0]
  · rw [hfile0]
    exact readRecordsFuel_stream ps hb (recordStream ps).length
      (length_le_recordStream_length ps)

/-- C8 witness: two concrete appends land `current_offset` at 5 + 6 = 11
and read back in order. -/
theorem c8_append_roundtrip_witness :
    (∀ p ∈ [[5], [6, 7]], List.length p < 2 ^ 31) ∧
    (appendAll init0 [[5], [6, 7]]).current_offset
      = ([[5], [6, 7]].map (fun p => 4 + p.length)).sum ∧
    readRecords (appendAll init0 [[5], [6, 7]]).file = some [[5], [6, 7]] :=
  ⟨by decide, c8_append_roundtrip [[5], [6, 7]] (by decide)⟩

/-- C9 counterexample: `open("prog.log")` failing with `ENOENT` is not
fatal — `Init` proceeds with `sync_offset = 0` — so not every failure of
the open call terminates the process. -/
theorem c9_enoent_counterexample :
    recoverSyncOffset (.fail enoent) = .proceed 0 ∧
    (InitOutcome.proceed 0 ≠ InitOutcome.fatal) := by
  decide

/-- C9 amended: at startup, a failure to open `prog.log` is fatal for
every errno other than `ENOENT`; with `ENOENT` (file absent) `Init`
proceeds with `sync_offset = 0`. -/
theorem c9_open_failure_fatal_unless_enoent (e : Nat) :
    (e ≠ enoent → recoverSyncOffset (.fail e) = .fatal) ∧
    recoverSyncOffset (.fail enoent) = .proceed 0 := by
  constructor
  · intro hne
    simp [recoverSyncOffset, hne]
  · decide

/-- C9 witness: errno 13 (EACCES) is fatal. -/
theorem c9_open_failure_fatal_unless_enoent_witness :
    (13 : Nat) ≠ enoent ∧ recoverSyncOffset (.fail 13) = .fatal :=
  ⟨by decide, (c9_open_failure_fatal_unless_enoent 13).1 (by decide)⟩

/-- C10: in a drain step whose reads succeed, a missing callback entry
at the pre-advance `sync_offset` is fatal when that offset is non-zero,
and is tolerated when the offset is zero — the step then completes,
advancing `sync_offset` past the record with the callback map and the
invocation history unchanged. -/
theorem c10_missing_callback_branch (s : SyncState)
    (hlt : s.sync_offset < s.current_offset)
    (hhl : ((s.file.drop s.read_pos).take 4).length = 4)
    (hpl : (((s.file.drop s.read_pos).drop 4).take
        (decodeLen ((s.file.drop s.read_pos).take 4))).length
      = decodeLen ((s.file.drop s.read_pos).take 4))
    (hmiss : s.sync_offset ∉ s.callbacks) :
    (s.sync_offset ≠ 0 →
      replicateStep s = .fatalNoCallback
        { s with
            read_pos := s.read_pos + (4 + decodeLen ((s.file.drop s.read_pos).take 4)) }) ∧
    (s.sync_offset = 0 →
      replicateStep s = .ok
        { s with
            read_pos := s.read_pos + (4 + decodeLen ((s.file.drop s.read_pos).take 4)),
            sync_offset :=
              s.sync_offset + (4 + decodeLen ((s.file.drop s.read_pos).take 4)) }) := by
  have hrw := replicateStep_eq_branch hlt rfl hhl hpl
  rw [hrw]
  constructor
  · intro h0
    rw [if_neg hmiss, if_pos h0]
  · intro h0
    rw [if_neg hmiss, if_neg (by simp [h0])]

/-- C10 witness: concrete states exercising the fatal non-zero-offset
miss and the tolerated zero-offset miss. -/
theorem c10_missing_callback_branch_witness :
    (replicateStep (⟨[1, 0, 0, 0, 9, 1, 0, 0, 0, 8], 5, 10, 5, [], [], [], false⟩ : SyncState)
      = .fatalNoCallback
        (⟨[1, 0, 0, 0, 9, 1, 0, 0, 0, 8], 10, 10, 5, [], [], [], false⟩ : SyncState)) ∧
    (replicateStep (⟨[1, 0, 0, 0, 9], 0, 5, 0, [], [], [], false⟩ : SyncState)
      = .ok (⟨[1, 0, 0, 0, 9], 5, 5, 5, [], [], [], false⟩ : SyncState)) :=
  ⟨(c10_missing_callback_branch ⟨[1, 0, 0, 0, 9, 1, 0, 0, 0, 8], 5, 10, 5, [], [], [], false⟩
      (by decide) (by decide) (by decide) (by decide)).1 (by decide),
   (c10_missing_callback_branch ⟨[1, 0, 0, 0, 9], 0, 5, 0, [], [], [], false⟩
      (by decide) (by decide) (by decide) (by decide)).2 (by decide)⟩

end MasterSlave
